import Mathlib

/-!
A shallow embedding of the predicate-parameterized range algorithms of
`upredalgo.h` from the ustl library (namespace `ustl`), together with
proofs about them.

Modelling conventions:
* An input-only range is a `List α`; an algorithm that writes through an
  output cursor is modelled by the list of elements written, in order, so
  the advance of the output cursor is the length of that list.
* Random-access cursors (the binary-search family, `replace_if`,
  `mismatch`, and the aliased buffer of `remove_if`) are offsets
  (`Nat`) into a memory `a : Nat → α` or into a `List`; `advance` and
  `distance` become `+` and `-` on `Nat`.
* Loop guards of the form `first != last` are modelled as `first < last`:
  every loop below keeps `first ≤ last` invariant (stepping by one, or
  moving to a midpoint inside the interval), so the two guards agree on
  every state reachable from a valid range `first ≤ last`.
* The element/value/predicate/comparator parameters are placed before the
  cursor parameters (they are loop-invariant), otherwise each function
  keeps the source's parameters and its name.
-/

namespace ustl

/-- Embedding of the writes of `remove_copy_if (first, last, result, pred)`.
The source loop is
`for (; first != last; ++first) if (pred (*first)) *result++ = *first;`
so it copies the elements for which `pred` is TRUE (its own doc comment
says the elements for which `pred` is true are not copied). -/
def remove_copy_if (pred : α → Bool) : List α → List α
  | [] => []
  | x :: xs => if pred x then x :: remove_copy_if pred xs else remove_copy_if pred xs

/-- Embedding of the writes of
`replace_copy_if (first, last, result, pred, new_value)`; the source loop is
`for (; first != last; ++result, ++first) *result = pred(*first) ? new_value : *first;`.
The source function is declared to return an `OutputIterator` but its body
ends without any return statement, so only the written sequence is
modelled; the source provides no returned cursor to embed. -/
def replace_copy_if (pred : α → Bool) (new_value : α) : List α → List α
  | [] => []
  | x :: xs => (if pred x then new_value else x) :: replace_copy_if pred new_value xs

/-- The loop of `remove_if (first, last, pred)`, which the source implements
as `remove_copy_if (first, last, first, pred)`: the output range aliases the
input buffer. `i` is the offset of the read cursor (the `first` of the
loop), `w` the offset of the write cursor (the `result`), both from the
start of the buffer. -/
def remove_if_aux (pred : α → Bool) (buf : List α) (i w : Nat) : List α × Nat :=
  if h : i < buf.length then
    let x := buf.get ⟨i, h⟩
    if pred x then remove_if_aux pred (buf.set w x) (i + 1) (w + 1)
    else remove_if_aux pred buf (i + 1) w
  else (buf, w)
termination_by buf.length - i
decreasing_by
  · simp only [List.length_set]; omega
  · omega

/-- Embedding of `remove_if (first, last, pred)` on a whole buffer: the
buffer contents after the in-place pass, and the offset of the returned
cursor (the `new_last`). -/
def remove_if (pred : α → Bool) (buf : List α) : List α × Nat :=
  remove_if_aux pred buf 0 0

/-- Embedding of `replace_if (first, last, pred, new_value)` over a memory
`a : Nat → α`; mirrors
`for (; first != last; ++first) if (pred (*first)) *first = new_value;`. -/
def replace_if (pred : α → Bool) (new_value : α) (a : Nat → α) (first last : Nat) : Nat → α :=
  if h : first < last then
    replace_if pred new_value
      (fun i => if i = first ∧ pred (a first) = true then new_value else a i)
      (first + 1) last
  else a
termination_by last - first
decreasing_by omega

/-- Embedding of `mismatch (first1, last1, first2, comp)` over two memories;
mirrors `while (first1 != last1 && comp(*first1, *first2)) ++first1, ++first2;
return (make_pair (first1, first2));`. -/
def mismatch (comp : α → α → Bool) (a b : Nat → α) (first1 last1 first2 : Nat) : Nat × Nat :=
  if h : first1 < last1 ∧ comp (a first1) (b first2) = true then
    mismatch comp a b (first1 + 1) last1 (first2 + 1)
  else (first1, first2)
termination_by last1 - first1
decreasing_by omega

/-- Embedding of `lower_bound (first, last, value, comp)` over a memory
`a : Nat → α`; the loop variable `mid = advance (first, distance (first,last) / 2)`
is written inline as `first + (last - first) / 2`. -/
def lower_bound (a : Nat → α) (value : α) (comp : α → α → Bool) (first last : Nat) : Nat :=
  if h : first < last then
    if comp (a (first + (last - first) / 2)) value then
      lower_bound a value comp (first + (last - first) / 2 + 1) last
    else lower_bound a value comp first (first + (last - first) / 2)
  else first
termination_by last - first
decreasing_by
  · omega
  · omega

/-- Embedding of `upper_bound (first, last, value, comp)`, with `mid`
inline as in `lower_bound`; note the source returns `last` when the loop
exits. -/
def upper_bound (a : Nat → α) (value : α) (comp : α → α → Bool) (first last : Nat) : Nat :=
  if h : first < last then
    if comp value (a (first + (last - first) / 2)) then
      upper_bound a value comp first (first + (last - first) / 2)
    else upper_bound a value comp (first + (last - first) / 2 + 1) last
  else last
termination_by last - first
decreasing_by
  · omega
  · omega

/-- Embedding of `binary_search (first, last, value, comp)`; the source
returns an ITERATOR, not a boolean: the position found by `lower_bound`
when the search succeeds, and `last` when it fails. -/
def binary_search (a : Nat → α) (value : α) (comp : α → α → Bool) (first last : Nat) : Nat :=
  let found := lower_bound a value comp first last
  if found = last ∨ comp value (a found) = true then last else found

/-- The linear scan of `equal_range`:
`while (rv.second != last && !comp(value, *(rv.second))) ++ rv.second;`
(`i` is the offset of `rv.second`). -/
def equal_range_scan (a : Nat → α) (value : α) (comp : α → α → Bool) (last i : Nat) : Nat :=
  if h : i < last ∧ comp value (a i) = false then
    equal_range_scan a value comp last (i + 1)
  else i
termination_by last - i
decreasing_by omega

/-- Embedding of `equal_range (first, last, value, comp)`:
`rv.second = rv.first = lower_bound (first, last, value, comp)`, then
`rv.second` is advanced by the linear scan. -/
def equal_range (a : Nat → α) (value : α) (comp : α → α → Bool) (first last : Nat) : Nat × Nat :=
  let lo := lower_bound a value comp first last
  (lo, equal_range_scan a value comp last lo)

/-- C1: the claim says `remove_copy_if` copies exactly the elements for
which `pred` is FALSE, as does the doc comment in the source; the loop body
`if (pred (*first)) *result++ = *first;` copies exactly the elements for
which `pred` is TRUE. On `[1, 2, 3, 4, 5]` with the predicate "is even"
the code writes `[2, 4]`, not the `[1, 3, 5]` the claim requires, so the
output is not the pred-false elements and the output cursor advances by 2,
one past the last PRED-TRUE element copied. -/
theorem remove_copy_if_copies_pred_true :
    remove_copy_if (fun x => x % 2 == 0) [1, 2, 3, 4, 5] = [2, 4] ∧
    remove_copy_if (fun x => x % 2 == 0) [1, 2, 3, 4, 5] ≠
      List.filter (fun x => !(x % 2 == 0)) [1, 2, 3, 4, 5] := by
  decide

/-- C2: the claim (and the source's doc comment) says `remove_if` keeps
exactly the elements for which `pred` is false; since `remove_if` is
`remove_copy_if (first, last, first, pred)` and `remove_copy_if` copies
the pred-TRUE elements, on `[1, 2, 3, 4, 5]` with "is even" the buffer
becomes `[2, 4, 3, 4, 5]` and the returned cursor is at offset 2: the
logical range is `[2, 4]`, not the claimed `[1, 3, 5]` with cursor 3. -/
theorem remove_if_keeps_pred_true :
    remove_if (fun x => x % 2 == 0) [1, 2, 3, 4, 5] = ([2, 4, 3, 4, 5], 2) ∧
    (remove_if (fun x => x % 2 == 0) [1, 2, 3, 4, 5]).2 ≠ 3 ∧
    List.take (remove_if (fun x => x % 2 == 0) [1, 2, 3, 4, 5]).2
      (remove_if (fun x => x % 2 == 0) [1, 2, 3, 4, 5]).1 ≠ [1, 3, 5] := by
  have h : remove_if (fun x => x % 2 == 0) [1, 2, 3, 4, 5] = ([2, 4, 3, 4, 5], 2) := by
    simp [remove_if, remove_if_aux]
    decide
  rw [h]
  decide

/-- C3: the writes of `replace_copy_if` are as the claim states: exactly
one output element per input element, `new_value` where `pred` holds and
the input element otherwise (so the written sequence has the length of the
input range). The claim's returned-cursor clause is the part the code
breaks: the body has no return statement (see `replace_copy_if`). -/
theorem replace_copy_if_writes (pred : α → Bool) (new_value : α) (l : List α) :
    replace_copy_if pred new_value l =
      l.map (fun x => if pred x then new_value else x) ∧
    (replace_copy_if pred new_value l).length = l.length := by
  induction l with
  | nil => exact ⟨rfl, rfl⟩
  | cons x xs ih =>
    refine ⟨?_, ?_⟩
    · simp only [replace_copy_if, List.map_cons, ih.1]
    · simp only [replace_copy_if, List.length_cons, ih.2]

/-- C9: `replace_if` sets to `new_value` exactly the positions inside
`[first, last)` whose element satisfies `pred`, leaves every other position
of the range unchanged, and touches no position outside `[first, last)`. -/
theorem replace_if_frame (pred : α → Bool) (new_value : α) (a : Nat → α)
    (first last i : Nat) :
    replace_if pred new_value a first last i =
      if first ≤ i ∧ i < last ∧ pred (a i) = true then new_value else a i := by
  induction a, first, last using replace_if.induct pred new_value generalizing i with
  | case1 a first last h ih =>
    rw [replace_if.eq_def, dif_pos h]
    refine (ih i).trans ?_
    by_cases hi : i = first
    · subst hi
      rw [if_neg (by omega)]
      simp [h]
    · have hiff : (first + 1 ≤ i ∧ i < last ∧ pred (a i) = true) ↔
          (first ≤ i ∧ i < last ∧ pred (a i) = true) := by
        constructor <;> rintro ⟨h1, h2, h3⟩ <;> exact ⟨by omega, h2, h3⟩
      simp only [hi, false_and, dite_false]
      simp [hiff]
  | case2 a first last h =>
    rw [replace_if.eq_def, dif_neg h]
    rw [if_neg (by omega)]

/-- C10: the two cursors returned by `mismatch` are advanced by the same
offset from `first1` and `first2`, and `comp` holds at every pair of
corresponding elements strictly before that offset. -/
theorem mismatch_offsets (comp : α → α → Bool) (a b : Nat → α)
    (first1 last1 first2 : Nat) :
    first1 ≤ (mismatch comp a b first1 last1 first2).1 ∧
    (mismatch comp a b first1 last1 first2).2 =
      first2 + ((mismatch comp a b first1 last1 first2).1 - first1) ∧
    (mismatch comp a b first1 last1 first2).1 - first1 =
      (mismatch comp a b first1 last1 first2).2 - first2 ∧
    ∀ k, first1 + k < (mismatch comp a b first1 last1 first2).1 →
      comp (a (first1 + k)) (b (first2 + k)) = true := by
  induction first1, last1, first2 using mismatch.induct comp a b with
  | case1 first1 last1 first2 h ih =>
    rw [mismatch.eq_def, dif_pos h]
    obtain ⟨ih1, ih2, ih3, ih4⟩ := ih
    refine ⟨by omega, by omega, by omega, ?_⟩
    intro k hk
    cases k with
    | zero => simpa using h.2
    | succ k =>
      have e1 : first1 + (k + 1) = first1 + 1 + k := by omega
      have e2 : first2 + (k + 1) = first2 + 1 + k := by omega
      rw [e1, e2]
      exact ih4 k (by omega)
  | case2 first1 last1 first2 h =>
    rw [mismatch.eq_def, dif_neg h]
    exact ⟨Nat.le_refl _, by simp, by simp, fun k hk => absurd hk (by simp)⟩

/-- On a range `[first, last)` sorted under `comp`, if `comp` has the
splitting property of a strict weak ordering
(`comp x y → comp x z ∨ comp z y`, here instantiated at elements of the
range and `value`), then `comp (·, value)` propagates from any position of
the range to every earlier position. -/
theorem comp_value_mono (a : Nat → α) (value : α) (comp : α → α → Bool)
    (first last : Nat)
    (hsorted : ∀ i j, first ≤ i → i < j → j < last → comp (a j) (a i) = false)
    (hsplit : ∀ i j, first ≤ i → first ≤ j → i < last → j < last →
      comp (a i) value = true → comp (a i) (a j) = true ∨ comp (a j) value = true) :
    ∀ i j, first ≤ i → i ≤ j → j < last → comp (a j) value = true →
      comp (a i) value = true := by
  intro i j h1 h2 h3 hc
  rcases Nat.eq_or_lt_of_le h2 with he | hlt
  · rwa [he]
  · rcases hsplit j i (by omega) h1 h3 (by omega) hc with hd | hd
    · rw [hsorted i j h1 hlt h3] at hd
      exact absurd hd Bool.false_ne_true
    · exact hd

/-- Counterpart of `comp_value_mono`: on a sorted range with the splitting
property, `comp (value, ·)` propagates from any position of the range to
every later position. -/
theorem value_comp_mono (a : Nat → α) (value : α) (comp : α → α → Bool)
    (first last : Nat)
    (hsorted : ∀ i j, first ≤ i → i < j → j < last → comp (a j) (a i) = false)
    (hsplit : ∀ i j, first ≤ i → first ≤ j → i < last → j < last →
      comp value (a i) = true → comp value (a j) = true ∨ comp (a j) (a i) = true) :
    ∀ i j, first ≤ i → i ≤ j → j < last → comp value (a i) = true →
      comp value (a j) = true := by
  intro i j h1 h2 h3 hc
  rcases Nat.eq_or_lt_of_le h2 with he | hlt
  · rwa [← he]
  · rcases hsplit i j h1 (by omega) (by omega) h3 hc with hd | hd
    · exact hd
    · rw [hsorted i j h1 hlt h3] at hd
      exact absurd hd Bool.false_ne_true

/-- Characterization of `lower_bound` on a range where `comp (·, value)`
propagates downward: the result is the boundary position `r` of
`[first, last]`, with `comp (a j) value` true strictly before `r` and
false at `r` itself when `r < last`. -/
theorem lower_bound_boundary (a : Nat → α) (value : α) (comp : α → α → Bool)
    (first last : Nat) (hrange : first ≤ last)
    (hmono : ∀ i j, first ≤ i → i ≤ j → j < last → comp (a j) value = true →
      comp (a i) value = true) :
    first ≤ lower_bound a value comp first last ∧
    lower_bound a value comp first last ≤ last ∧
    (∀ j, first ≤ j → j < lower_bound a value comp first last →
      comp (a j) value = true) ∧
    (lower_bound a value comp first last < last →
      comp (a (lower_bound a value comp first last)) value = false) := by
  revert hrange hmono
  induction first, last using lower_bound.induct a value comp with
  | case1 first last h hc ih =>
    intro hrange hmono
    obtain ⟨ih1, ih2, ih3, ih4⟩ := ih (by omega)
      (fun i j hi hij hj hcj => hmono i j (by omega) hij hj hcj)
    rw [lower_bound.eq_def, dif_pos h, if_pos hc]
    refine ⟨by omega, ih2, ?_, ih4⟩
    intro j hj1 hj2
    rcases Nat.lt_or_ge j (first + (last - first) / 2 + 1) with hle | hgt
    · exact hmono j (first + (last - first) / 2) hj1 (by omega) (by omega) hc
    · exact ih3 j (by omega) hj2
  | case2 first last h hc ih =>
    intro hrange hmono
    obtain ⟨ih1, ih2, ih3, ih4⟩ := ih (by omega)
      (fun i j hi hij hj hcj => hmono i j hi hij (by omega) hcj)
    rw [lower_bound.eq_def, dif_pos h, if_neg hc]
    refine ⟨ih1, by omega, ih3, ?_⟩
    intro hlt
    rcases Nat.lt_or_ge (lower_bound a value comp first (first + (last - first) / 2))
        (first + (last - first) / 2) with hlt2 | hge
    · exact ih4 hlt2
    · have he : lower_bound a value comp first (first + (last - first) / 2) =
          first + (last - first) / 2 := by omega
      rw [he]
      rcases Bool.eq_false_or_eq_true
          (comp (a (first + (last - first) / 2)) value) with hb | hb
      · exact absurd hb hc
      · exact hb
  | case3 first last h =>
    intro hrange hmono
    rw [lower_bound.eq_def, dif_neg h]
    exact ⟨Nat.le_refl _, hrange, fun j hj1 hj2 => absurd (Nat.lt_of_le_of_lt hj1 hj2)
      (Nat.lt_irrefl first), fun hlt => absurd hlt h⟩

/-- Characterization of `upper_bound` on a range where `comp (value, ·)`
propagates upward: the result is the boundary position `r` of
`[first, last]`, with `comp value (a j)` false strictly before `r` and
true at `r` itself when `r < last`. -/
theorem upper_bound_boundary (a : Nat → α) (value : α) (comp : α → α → Bool)
    (first last : Nat) (hrange : first ≤ last)
    (hmono : ∀ i j, first ≤ i → i ≤ j → j < last → comp value (a i) = true →
      comp value (a j) = true) :
    first ≤ upper_bound a value comp first last ∧
    upper_bound a value comp first last ≤ last ∧
    (∀ j, first ≤ j → j < upper_bound a value comp first last →
      comp value (a j) = false) ∧
    (upper_bound a value comp first last < last →
      comp value (a (upper_bound a value comp first last)) = true) := by
  revert hrange hmono
  induction first, last using upper_bound.induct a value comp with
  | case1 first last h hc ih =>
    intro hrange hmono
    obtain ⟨ih1, ih2, ih3, ih4⟩ := ih (by omega)
      (fun i j hi hij hj hci => hmono i j hi hij (by omega) hci)
    rw [upper_bound.eq_def, dif_pos h, if_pos hc]
    refine ⟨ih1, by omega, ih3, ?_⟩
    intro hlt
    rcases Nat.lt_or_ge (upper_bound a value comp first (first + (last - first) / 2))
        (first + (last - first) / 2) with hlt2 | hge
    · exact ih4 hlt2
    · have he : upper_bound a value comp first (first + (last - first) / 2) =
          first + (last - first) / 2 := by omega
      rw [he]
      exact hc
  | case2 first last h hc ih =>
    intro hrange hmono
    obtain ⟨ih1, ih2, ih3, ih4⟩ := ih (by omega)
      (fun i j hi hij hj hci => hmono i j (by omega) hij hj hci)
    rw [upper_bound.eq_def, dif_pos h, if_neg hc]
    refine ⟨by omega, ih2, ?_, ih4⟩
    intro j hj1 hj2
    rcases Nat.lt_or_ge j (first + (last - first) / 2 + 1) with hle | hgt
    · rcases Bool.eq_false_or_eq_true (comp value (a j)) with hb | hb
      · have := hmono j (first + (last - first) / 2) hj1 (by omega) (by omega) hb
        exact absurd this hc
      · exact hb
    · exact ih3 j (by omega) hj2
  | case3 first last h =>
    intro hrange hmono
    rw [upper_bound.eq_def, dif_neg h]
    have he : first = last := by omega
    subst he
    exact ⟨Nat.le_refl _, Nat.le_refl _, fun j hj1 hj2 => absurd (Nat.lt_of_le_of_lt hj1 hj2)
      (Nat.lt_irrefl first), fun hlt => absurd hlt (Nat.lt_irrefl first)⟩

/-- Characterization of the linear scan of `equal_range`: starting from
`i ≤ last` it stops at the first position `≥ i` where `comp value (a ·)`
holds, or at `last` when there is none. -/
theorem scan_boundary (a : Nat → α) (value : α) (comp : α → α → Bool)
    (last : Nat) :
    ∀ i, i ≤ last →
    i ≤ equal_range_scan a value comp last i ∧
    equal_range_scan a value comp last i ≤ last ∧
    (∀ j, i ≤ j → j < equal_range_scan a value comp last i →
      comp value (a j) = false) ∧
    (equal_range_scan a value comp last i < last →
      comp value (a (equal_range_scan a value comp last i)) = true) := by
  intro i
  induction i using equal_range_scan.induct a value comp last with
  | case1 i h ih =>
    intro hi
    obtain ⟨ih1, ih2, ih3, ih4⟩ := ih (by omega)
    rw [equal_range_scan.eq_def, dif_pos h]
    refine ⟨by omega, ih2, ?_, ih4⟩
    intro j hj1 hj2
    rcases Nat.eq_or_lt_of_le hj1 with he | hlt
    · rw [← he]
      exact h.2
    · exact ih3 j (by omega) hj2
  | case2 i h =>
    intro hi
    rw [equal_range_scan.eq_def, dif_neg h]
    refine ⟨Nat.le_refl _, hi, fun j hj1 hj2 => absurd (Nat.lt_of_le_of_lt hj1 hj2)
      (Nat.lt_irrefl i), ?_⟩
    intro hlt
    rcases Bool.eq_false_or_eq_true (comp value (a i)) with hb | hb
    · exact hb
    · exact absurd ⟨hlt, hb⟩ h

/-- C4: on a range `[first, last)` sorted under a strict-weak-ordering
comparator `comp` (hypotheses: sortedness of the range, and the splitting
consequence `comp x y → comp x z ∨ comp z y` of a strict weak ordering,
instantiated at the range's elements and `value`), `lower_bound` returns
the boundary position `p` of `[first, last]`: every element strictly
before `p` satisfies `comp (element, value)` and the element at `p` (when
`p < last`) does not — the first position at which `value` can be
inserted while keeping the range ordered, at the front of any run of
elements equivalent to `value`. These four conjuncts determine `p`
uniquely, so they express leftmostness. -/
theorem lower_bound_correct (a : Nat → α) (value : α) (comp : α → α → Bool)
    (first last : Nat) (hrange : first ≤ last)
    (hsorted : ∀ i j, first ≤ i → i < j → j < last → comp (a j) (a i) = false)
    (hsplit : ∀ i j, first ≤ i → first ≤ j → i < last → j < last →
      comp (a i) value = true → comp (a i) (a j) = true ∨ comp (a j) value = true) :
    first ≤ lower_bound a value comp first last ∧
    lower_bound a value comp first last ≤ last ∧
    (∀ j, first ≤ j → j < lower_bound a value comp first last →
      comp (a j) value = true) ∧
    (lower_bound a value comp first last < last →
      comp (a (lower_bound a value comp first last)) value = false) :=
  lower_bound_boundary a value comp first last hrange
    (comp_value_mono a value comp first last hsorted hsplit)

/-- C5: on a sorted range (hypotheses as in `lower_bound_correct`, with
the splitting consequence instantiated for `comp (value, ·)`),
`upper_bound` returns the first position `p` of `[first, last]` at which
`comp (value, element)` holds — `last` when there is no such position —
which is the rightmost valid insertion position for `value`. -/
theorem upper_bound_correct (a : Nat → α) (value : α) (comp : α → α → Bool)
    (first last : Nat) (hrange : first ≤ last)
    (hsorted : ∀ i j, first ≤ i → i < j → j < last → comp (a j) (a i) = false)
    (hsplit : ∀ i j, first ≤ i → first ≤ j → i < last → j < last →
      comp value (a i) = true → comp value (a j) = true ∨ comp (a j) (a i) = true) :
    first ≤ upper_bound a value comp first last ∧
    upper_bound a value comp first last ≤ last ∧
    (∀ j, first ≤ j → j < upper_bound a value comp first last →
      comp value (a j) = false) ∧
    (upper_bound a value comp first last < last →
      comp value (a (upper_bound a value comp first last)) = true) :=
  upper_bound_boundary a value comp first last hrange
    (value_comp_mono a value comp first last hsorted hsplit)

/-- C6: `equal_range` — which computes `lower_bound` once and advances the
second cursor linearly while `!comp(value, *position)` — returns exactly
the pair `(lower_bound, upper_bound)`, and every element of the returned
subrange is equivalent to `value` under `comp` (neither direction of
`comp` holds). Hypotheses: sortedness, the two splitting instances, and
the asymmetry instance of the strict weak ordering at `value`. -/
theorem equal_range_correct (a : Nat → α) (value : α) (comp : α → α → Bool)
    (first last : Nat) (hrange : first ≤ last)
    (hsorted : ∀ i j, first ≤ i → i < j → j < last → comp (a j) (a i) = false)
    (hsplit1 : ∀ i j, first ≤ i → first ≤ j → i < last → j < last →
      comp (a i) value = true → comp (a i) (a j) = true ∨ comp (a j) value = true)
    (hsplit2 : ∀ i j, first ≤ i → first ≤ j → i < last → j < last →
      comp value (a i) = true → comp value (a j) = true ∨ comp (a j) (a i) = true)
    (hasym : ∀ i, first ≤ i → i < last → comp (a i) value = true →
      comp value (a i) = false) :
    equal_range a value comp first last =
      (lower_bound a value comp first last, upper_bound a value comp first last) ∧
    ∀ i, (equal_range a value comp first last).1 ≤ i →
      i < (equal_range a value comp first last).2 →
      comp (a i) value = false ∧ comp value (a i) = false := by
  have hmono := comp_value_mono a value comp first last hsorted hsplit1
  have hmono2 := value_comp_mono a value comp first last hsorted hsplit2
  obtain ⟨lb1, lb2, lb3, lb4⟩ := lower_bound_boundary a value comp first last hrange hmono
  obtain ⟨ub1, ub2, ub3, ub4⟩ := upper_bound_boundary a value comp first last hrange hmono2
  obtain ⟨s1, s2, s3, s4⟩ :=
    scan_boundary a value comp last (lower_bound a value comp first last) lb2
  have hse : equal_range_scan a value comp last (lower_bound a value comp first last) =
      upper_bound a value comp first last := by
    rcases Nat.lt_trichotomy
        (equal_range_scan a value comp last (lower_bound a value comp first last))
        (upper_bound a value comp first last) with hlt | he | hgt
    · have hfs : first ≤ equal_range_scan a value comp last
          (lower_bound a value comp first last) := Nat.le_trans lb1 s1
      have h1 := ub3 _ hfs hlt
      have h2 := s4 (Nat.lt_of_lt_of_le hlt ub2)
      rw [h1] at h2
      exact absurd h2 Bool.false_ne_true
    · exact he
    · have hul : upper_bound a value comp first last < last := Nat.lt_of_lt_of_le hgt s2
      have hct := ub4 hul
      rcases Nat.lt_or_ge (upper_bound a value comp first last)
          (lower_bound a value comp first last) with hlo2 | hlo2
      · have h1 := lb3 _ ub1 hlo2
        have h2 := hasym _ ub1 hul h1
        rw [h2] at hct
        exact absurd hct Bool.false_ne_true
      · have h1 := s3 _ hlo2 hgt
        rw [h1] at hct
        exact absurd hct Bool.false_ne_true
  have heq : equal_range a value comp first last =
      (lower_bound a value comp first last,
        equal_range_scan a value comp last (lower_bound a value comp first last)) := rfl
  refine ⟨by rw [heq, hse], ?_⟩
  intro i hi1 hi2
  rw [heq] at hi1 hi2
  have hi1l : lower_bound a value comp first last ≤ i := hi1
  have hi2s : i < equal_range_scan a value comp last
      (lower_bound a value comp first last) := hi2
  have hil : i < last := Nat.lt_of_lt_of_le hi2s s2
  refine ⟨?_, s3 i hi1l hi2s⟩
  rcases Bool.eq_false_or_eq_true (comp (a i) value) with hb | hb
  · have h1 := hmono (lower_bound a value comp first last) i lb1 hi1l hil hb
    have h2 := lb4 (Nat.lt_of_le_of_lt hi1l hil)
    rw [h2] at h1
    exact absurd h1 Bool.false_ne_true
  · exact hb

/-- C7: `binary_search` succeeds — returns a position other than `last`,
which is how the source (whose return type is an iterator, not a boolean)
encodes "found" — exactly when some element of the sorted range is
equivalent to `value` under `comp`; and on an empty range
(`first = last`) it returns `last`, i.e. "not found". -/
theorem binary_search_correct (a : Nat → α) (value : α) (comp : α → α → Bool)
    (first last : Nat) (hrange : first ≤ last)
    (hsorted : ∀ i j, first ≤ i → i < j → j < last → comp (a j) (a i) = false)
    (hsplit1 : ∀ i j, first ≤ i → first ≤ j → i < last → j < last →
      comp (a i) value = true → comp (a i) (a j) = true ∨ comp (a j) value = true)
    (hsplit2 : ∀ i j, first ≤ i → first ≤ j → i < last → j < last →
      comp value (a i) = true → comp value (a j) = true ∨ comp (a j) (a i) = true) :
    (binary_search a value comp first last ≠ last ↔
      ∃ i, first ≤ i ∧ i < last ∧ comp (a i) value = false ∧
        comp value (a i) = false) ∧
    (first = last → binary_search a value comp first last = last) := by
  have hmono := comp_value_mono a value comp first last hsorted hsplit1
  have hmono2 := value_comp_mono a value comp first last hsorted hsplit2
  obtain ⟨lb1, lb2, lb3, lb4⟩ := lower_bound_boundary a value comp first last hrange hmono
  have hbs : binary_search a value comp first last =
      if lower_bound a value comp first last = last ∨
          comp value (a (lower_bound a value comp first last)) = true then last
      else lower_bound a value comp first last := rfl
  refine ⟨⟨?_, ?_⟩, ?_⟩
  · intro hne
    rw [hbs] at hne
    by_cases hcond : lower_bound a value comp first last = last ∨
        comp value (a (lower_bound a value comp first last)) = true
    · rw [if_pos hcond] at hne
      exact absurd rfl hne
    · push_neg at hcond
      obtain ⟨hne2, hcv⟩ := hcond
      have hlt : lower_bound a value comp first last < last :=
        Nat.lt_of_le_of_ne lb2 hne2
      refine ⟨lower_bound a value comp first last, lb1, hlt, lb4 hlt, ?_⟩
      rcases Bool.eq_false_or_eq_true
          (comp value (a (lower_bound a value comp first last))) with hb | hb
      · exact absurd hb hcv
      · exact hb
  · rintro ⟨i, hi1, hi2, hi3, hi4⟩
    have hfle : lower_bound a value comp first last ≤ i := by
      by_contra hgt
      push_neg at hgt
      have h1 := lb3 i hi1 hgt
      rw [hi3] at h1
      exact absurd h1 Bool.false_ne_true
    have hlt : lower_bound a value comp first last < last :=
      Nat.lt_of_le_of_lt hfle hi2
    have hcv : comp value (a (lower_bound a value comp first last)) = false := by
      rcases Bool.eq_false_or_eq_true
          (comp value (a (lower_bound a value comp first last))) with hb | hb
      · have h1 := hmono2 (lower_bound a value comp first last) i lb1 hfle hi2 hb
        rw [hi4] at h1
        exact absurd h1 Bool.false_ne_true
      · exact hb
    have hcnd : ¬(lower_bound a value comp first last = last ∨
        comp value (a (lower_bound a value comp first last)) = true) := by
      rintro (hc | hc)
      · exact absurd hc (Nat.ne_of_lt hlt)
      · rw [hcv] at hc
        exact absurd hc Bool.false_ne_true
    rw [hbs, if_neg hcnd]
    exact Nat.ne_of_lt hlt
  · intro heq
    have hfe : lower_bound a value comp first last = last := by
      subst heq
      rw [lower_bound.eq_def, dif_neg (Nat.lt_irrefl first)]
    rw [hbs, if_pos (Or.inl hfe)]

/-- C8: each iteration of the bisection loops strictly reduces
`distance (first, last)`: with `mid = first + (last - first) / 2`, both
the advancing branch `first = mid + 1` and the shrinking branch
`last = mid` give a strictly smaller interval (the first two conjuncts,
for any `first < last`); consequently a range of size 1 is decided after
exactly one comparison (the unfoldings of `lower_bound`/`upper_bound` on
`[first, first + 1)`) and an empty range returns immediately. -/
theorem bisection_progress (a : Nat → α) (value : α) (comp : α → α → Bool)
    (first last : Nat) (h : first < last) :
    (last - (first + (last - first) / 2 + 1) < last - first) ∧
    ((first + (last - first) / 2) - first < last - first) ∧
    lower_bound a value comp first first = first ∧
    upper_bound a value comp first first = first ∧
    lower_bound a value comp first (first + 1) =
      (if comp (a first) value = true then first + 1 else first) ∧
    upper_bound a value comp first (first + 1) =
      (if comp value (a first) = true then first else first + 1) := by
  refine ⟨by omega, by omega, ?_, ?_, ?_, ?_⟩
  · rw [lower_bound.eq_def, dif_neg (Nat.lt_irrefl first)]
  · rw [upper_bound.eq_def, dif_neg (Nat.lt_irrefl first)]
  · rw [lower_bound.eq_def, dif_pos (Nat.lt_succ_self first)]
    have hm : first + (first + 1 - first) / 2 = first := by omega
    rw [hm]
    by_cases hc : comp (a first) value = true
    · rw [if_pos hc, if_pos hc, lower_bound.eq_def,
        dif_neg (Nat.lt_irrefl (first + 1))]
    · rw [if_neg hc, if_neg hc, lower_bound.eq_def, dif_neg (Nat.lt_irrefl first)]
  · rw [upper_bound.eq_def, dif_pos (Nat.lt_succ_self first)]
    have hm : first + (first + 1 - first) / 2 = first := by omega
    rw [hm]
    by_cases hc : comp value (a first) = true
    · rw [if_pos hc, if_pos hc, upper_bound.eq_def, dif_neg (Nat.lt_irrefl first)]
    · rw [if_neg hc, if_neg hc, upper_bound.eq_def,
        dif_neg (Nat.lt_irrefl (first + 1))]

/-- The sorted sample range `[1, 3, 3, 3, 5, 7]` of the spec's scenarios,
as a memory (positions past the range read 0). -/
def sampleMem : Nat → Nat := fun i => [1, 3, 3, 3, 5, 7].getD i 0

/-- The natural strict order on `Nat` as a boolean comparator. -/
def sampleComp : Nat → Nat → Bool := fun x y => decide (x < y)

/-- Witness for C4 at the spec scenario `S = [1, 3, 3, 3, 5, 7]`, `v = 3`
(where `lower_bound` returns position 1). -/
theorem lower_bound_correct_witness :
    0 ≤ lower_bound sampleMem 3 sampleComp 0 6 ∧
    lower_bound sampleMem 3 sampleComp 0 6 ≤ 6 ∧
    (∀ j, 0 ≤ j → j < lower_bound sampleMem 3 sampleComp 0 6 →
      sampleComp (sampleMem j) 3 = true) ∧
    (lower_bound sampleMem 3 sampleComp 0 6 < 6 →
      sampleComp (sampleMem (lower_bound sampleMem 3 sampleComp 0 6)) 3 = false) :=
  lower_bound_correct sampleMem 3 sampleComp 0 6 (by omega)
    (by
      intro i j h1 h2 h3
      have hi : i < 6 := by omega
      interval_cases i <;> interval_cases j <;> decide)
    (by
      intro i j h1 h2 h3 h4
      interval_cases i <;> interval_cases j <;> decide)

/-- Witness for C5 at the spec scenario `S = [1, 3, 3, 3, 5, 7]`, `v = 3`
(where `upper_bound` returns position 4). -/
theorem upper_bound_correct_witness :
    0 ≤ upper_bound sampleMem 3 sampleComp 0 6 ∧
    upper_bound sampleMem 3 sampleComp 0 6 ≤ 6 ∧
    (∀ j, 0 ≤ j → j < upper_bound sampleMem 3 sampleComp 0 6 →
      sampleComp 3 (sampleMem j) = false) ∧
    (upper_bound sampleMem 3 sampleComp 0 6 < 6 →
      sampleComp 3 (sampleMem (upper_bound sampleMem 3 sampleComp 0 6)) = true) :=
  upper_bound_correct sampleMem 3 sampleComp 0 6 (by omega)
    (by
      intro i j h1 h2 h3
      have hi : i < 6 := by omega
      interval_cases i <;> interval_cases j <;> decide)
    (by
      intro i j h1 h2 h3 h4
      interval_cases i <;> interval_cases j <;> decide)

/-- Witness for C6 at the spec scenario `S = [1, 3, 3, 3, 5, 7]`, `v = 3`
(where `equal_range` returns `(1, 4)`). -/
theorem equal_range_correct_witness :
    equal_range sampleMem 3 sampleComp 0 6 =
      (lower_bound sampleMem 3 sampleComp 0 6,
        upper_bound sampleMem 3 sampleComp 0 6) ∧
    ∀ i, (equal_range sampleMem 3 sampleComp 0 6).1 ≤ i →
      i < (equal_range sampleMem 3 sampleComp 0 6).2 →
      sampleComp (sampleMem i) 3 = false ∧ sampleComp 3 (sampleMem i) = false :=
  equal_range_correct sampleMem 3 sampleComp 0 6 (by omega)
    (by
      intro i j h1 h2 h3
      have hi : i < 6 := by omega
      interval_cases i <;> interval_cases j <;> decide)
    (by
      intro i j h1 h2 h3 h4
      interval_cases i <;> interval_cases j <;> decide)
    (by
      intro i j h1 h2 h3 h4
      interval_cases i <;> interval_cases j <;> decide)
    (by
      intro i h1 h2 h3
      interval_cases i <;> revert h3 <;> decide)

/-- Witness for C7 at the spec scenario `S = [1, 3, 3, 3, 5, 7]`, `v = 3`
(where `binary_search` succeeds). -/
theorem binary_search_correct_witness :
    (binary_search sampleMem 3 sampleComp 0 6 ≠ 6 ↔
      ∃ i, 0 ≤ i ∧ i < 6 ∧ sampleComp (sampleMem i) 3 = false ∧
        sampleComp 3 (sampleMem i) = false) ∧
    ((0 : Nat) = 6 → binary_search sampleMem 3 sampleComp 0 6 = 6) :=
  binary_search_correct sampleMem 3 sampleComp 0 6 (by omega)
    (by
      intro i j h1 h2 h3
      have hi : i < 6 := by omega
      interval_cases i <;> interval_cases j <;> decide)
    (by
      intro i j h1 h2 h3 h4
      interval_cases i <;> interval_cases j <;> decide)
    (by
      intro i j h1 h2 h3 h4
      interval_cases i <;> interval_cases j <;> decide)

/-- Witness for C8 on the two-element range `[0, 2)`. -/
theorem bisection_progress_witness :
    (2 - (0 + (2 - 0) / 2 + 1) < 2 - 0) ∧
    ((0 + (2 - 0) / 2) - 0 < 2 - 0) ∧
    lower_bound sampleMem 3 sampleComp 0 0 = 0 ∧
    upper_bound sampleMem 3 sampleComp 0 0 = 0 ∧
    lower_bound sampleMem 3 sampleComp 0 (0 + 1) =
      (if sampleComp (sampleMem 0) 3 = true then 0 + 1 else 0) ∧
    upper_bound sampleMem 3 sampleComp 0 (0 + 1) =
      (if sampleComp 3 (sampleMem 0) = true then 0 else 0 + 1) :=
  bisection_progress sampleMem 3 sampleComp 0 2 (by omega)

end ustl
